import Mathlib

/-!
Verification of the assuo patch engine (src/assuo/src/patch.rs, function
do_patch) against its natural-language specification.

The engine consumes an already-resolved source buffer and an
already-resolved, ordered list of edits, so sources are embedded as plain
byte lists (resolution of text/file/url sources is out of the engine's
scope).  Machine integers (usize) are embedded as Nat; the sentinel
std::usize::MAX is the explicit constant 2^64 - 1.  Rust panics
(the explicit panic in get_index, checked-arithmetic underflow in
spot - 1 and insertion_point - count, and out-of-range slice or splice
indexing on Vec) are embedded as Option.none: a step that panics produces
no state, and the run yields no buffer.
-/

set_option maxHeartbeats 4000000
set_option maxRecDepth 100000

namespace Assuo

/-- The value std::usize::MAX on a 64-bit target, used by the code as the
sentinel origin marker for inserted bytes (patch.rs line 83). -/
def USIZE_MAX : Nat := 2 ^ 64 - 1

/-- The direction a modification looks in (models.rs, enum Direction). -/
inductive Direction
  | Pre
  | Post
deriving DecidableEq

/-- A single resolved patch action (models.rs, enum AssuoPatch, with the
Insert source already resolved to bytes). -/
inductive AssuoPatch
  | Insert (way : Direction) (spot : Nat) (source : List Nat)
  | Remove (way : Direction) (spot : Nat) (count : Nat)
deriving DecidableEq

/-- The engine state while the patching loop of do_patch runs: the working
byte buffer (file.source) and the offset index (the indexes vec,
patch.rs lines 26-29). -/
structure PState where
  source : List Nat
  indexes : List (List Nat)
deriving DecidableEq

/-- patch.rs lines 31-39: scan the indexes vec left to right and return the
position of the first slot whose origin-id set contains i; the code panics
when no slot matches, embedded here as none. -/
def get_index (indexes : List (List Nat)) (i : Nat) : Option Nat :=
  match indexes with
  | [] => none
  | s :: rest => if i ∈ s then some 0 else (get_index rest i).map (· + 1)

/-- patch.rs lines 98-104, the inner loop of the fold: push each element of
elem onto acc unless acc already contains it. -/
def fold_push (acc : List Nat) (elem : List Nat) : List Nat :=
  elem.foldl (fun a x => if x ∈ a then a else a ++ [x]) acc

/-- patch.rs lines 96-105: fold the origin-id sets of the removed slots into
one deduplicated union set. -/
def fold_union (slots : List (List Nat)) : List Nat :=
  slots.foldl fold_push []

/-- patch.rs lines 81-84: the fresh offset-index slots for inserted payload
bytes, one sentinel set vec![std::usize::MAX] per byte. -/
def sentinels (payload : List Nat) : List (List Nat) :=
  payload.map fun _ => [USIZE_MAX]

/-- patch.rs lines 70-73: the origin id an Insert resolves, spot - 1 for
Post and spot itself for Pre.  For Post at spot 0 the usize subtraction
underflows, a checked-arithmetic panic, embedded as none. -/
def insert_lookup (way : Direction) (spot : Nat) : Option Nat :=
  match way with
  | .Post => if spot = 0 then none else some (spot - 1)
  | .Pre => some spot

/-- patch.rs lines 76-79: the splice point of an Insert, the resolved index
plus one for Post and the resolved index itself for Pre. -/
def insert_point (way : Direction) (found : Nat) : Nat :=
  match way with
  | .Post => found + 1
  | .Pre => found

/-- patch.rs lines 91-94: the start of a Remove range, resolved index plus
one for Post and resolved index minus count for Pre.  The usize
subtraction underflows when count exceeds the resolved index, embedded as
none. -/
def remove_start (way : Direction) (found : Nat) (count : Nat) : Option Nat :=
  match way with
  | .Post => some (found + 1)
  | .Pre => if found < count then none else some (found - count)

/-- One iteration of the patching loop of do_patch (patch.rs lines 42-113).
Vec::splice with range a..b is take a ++ replacement ++ drop b; it panics
when the range end exceeds the vector length, and the slice indexing
indexes[ip..ip+count] panics likewise, both embedded as none. -/
def step (st : PState) (p : AssuoPatch) : Option PState :=
  match p with
  | .Insert way spot payload =>
      (insert_lookup way spot).bind fun lookup =>
      (get_index st.indexes lookup).bind fun found =>
      if insert_point way found ≤ st.source.length then
        some ⟨st.source.take (insert_point way found) ++ payload
                ++ st.source.drop (insert_point way found),
              st.indexes.take (insert_point way found) ++ sentinels payload
                ++ st.indexes.drop (insert_point way found)⟩
      else none
  | .Remove way spot count =>
      (get_index st.indexes spot).bind fun found =>
      (remove_start way found count).bind fun ip =>
      if ip + count ≤ st.indexes.length ∧ ip + count ≤ st.source.length then
        some ⟨st.source.take ip ++ st.source.drop (ip + count),
              st.indexes.take ip ++ [fold_union ((st.indexes.drop ip).take count)]
                ++ st.indexes.drop (ip + count)⟩
      else none

/-- The patching loop: apply each patch sequentially (patch.rs line 42). -/
def run (st : PState) : List AssuoPatch → Option PState
  | [] => some st
  | p :: ps => (step st p).bind fun st' => run st' ps

/-- patch.rs lines 26-29: the initial offset index holds the singleton set
vec![i] for each position i of the source. -/
def initIndexes (n : Nat) : List (List Nat) :=
  (List.range n).map fun i => [i]

/-- The engine state at the start of the patching loop. -/
def initState (src : List Nat) : PState :=
  ⟨src, initIndexes src.length⟩

/-- The whole engine on resolved inputs: run the loop and return the final
buffer (patch.rs line 115), or none when some step panics. -/
def do_patch (src : List Nat) (ps : List AssuoPatch) : Option (List Nat) :=
  (run (initState src) ps).map PState.source

/-- The observable outcome of one do_patch call.  The io::Result error
branch (ioError) is produced only by the out-of-scope resolution phase
(models.rs); the patching loop itself has no typed-error construction, its
only failure sites are panics (patch.rs line 38, the usize subtractions,
and Vec slice/splice range checks). -/
inductive PatchOutcome
  | ok (bytes : List Nat)
  | ioError (msg : String)
  | panicked
deriving DecidableEq

/-- The outcome of do_patch on already-resolved inputs: the final buffer,
or a panic. -/
def do_patchOutcome (src : List Nat) (ps : List AssuoPatch) : PatchOutcome :=
  match run (initState src) ps with
  | some st => .ok st.source
  | none => .panicked

/-- Modelled from the spec (section 4.1 step Insert together with the rule
adopted in section 9): the splice point of an Insert is the index resolved
at spot directly, plus one when the direction is Post.  This follows the
spec's words, for comparison with the code's rule. -/
def spec_insert_splice_point (indexes : List (List Nat)) (way : Direction)
    (spot : Nat) : Option Nat :=
  (get_index indexes spot).map fun r =>
    match way with
    | .Pre => r
    | .Post => r + 1

/-- Modelled from the spec: a single Insert on a fresh buffer, placing the
payload at the spec's splice point. -/
def spec_single_insert (src : List Nat) (way : Direction) (spot : Nat)
    (payload : List Nat) : Option (List Nat) :=
  (spec_insert_splice_point (initIndexes src.length) way spot).map fun ip =>
    src.take ip ++ payload ++ src.drop ip

/-- Coverage: every original offset id below n is contained in some slot of
the offset index. -/
def covers (n : Nat) (indexes : List (List Nat)) : Prop :=
  ∀ i, i < n → ∃ s ∈ indexes, i ∈ s

/-- Exact coverage: every original offset id below n is contained in
exactly one slot of the offset index. -/
def exactlyOne (n : Nat) (indexes : List (List Nat)) : Prop :=
  ∀ i, i < n → indexes.countP (fun s => decide (i ∈ s)) = 1

/-- Boolean check of a property of an optional resolved index: vacuously
true when the resolution failed (coverage rules that case out separately). -/
def optOk (o : Option Nat) (f : Nat → Bool) : Bool :=
  match o with
  | none => true
  | some v => f v

/-- The per-edit precondition under which one loop iteration cannot panic:
spot bounds against the original length n (resolution then succeeds by
coverage), plus the splice-range bounds of the current state that the Vec
operations require. -/
def stepOkB (n : Nat) (st : PState) (p : AssuoPatch) : Bool :=
  match p with
  | .Insert .Pre spot _ =>
      decide (spot < n) &&
        optOk (get_index st.indexes spot) (fun f => decide (f ≤ st.source.length))
  | .Insert .Post spot _ =>
      decide (1 ≤ spot) && decide (spot ≤ n) &&
        optOk (get_index st.indexes (spot - 1))
          (fun f => decide (f + 1 ≤ st.source.length))
  | .Remove .Post spot count =>
      decide (spot < n) &&
        optOk (get_index st.indexes spot)
          (fun f => decide (f + 1 + count ≤ st.indexes.length) &&
            decide (f + 1 + count ≤ st.source.length))
  | .Remove .Pre spot count =>
      decide (spot < n) &&
        optOk (get_index st.indexes spot)
          (fun f => decide (count ≤ f) && decide (f ≤ st.indexes.length) &&
            decide (f ≤ st.source.length))

/-- The whole-run precondition: every edit satisfies its per-edit
precondition in the state where it runs. -/
def RunOkB (n : Nat) (st : PState) : List AssuoPatch → Bool
  | [] => true
  | p :: ps =>
      stepOkB n st p &&
        match step st p with
        | some st' => RunOkB n st' ps
        | none => false

/-- The bytes of the string Hlo ol, exclamation mark included, the base
source of the randomized permutation test (algo.rs). -/
def hloSource : List Nat := [72, 108, 111, 32, 111, 108, 33]

/-- The six single-character Post insertions of the randomized permutation
test (algo.rs), at the distinct original spots 1 to 6, spelling the
missing characters of Hello, World. -/
def hloEditList : List AssuoPatch :=
  [.Insert .Post 1 [101], .Insert .Post 2 [108], .Insert .Post 3 [44],
   .Insert .Post 4 [87], .Insert .Post 5 [114], .Insert .Post 6 [100]]

/-- The bytes of the string Hello, World, exclamation mark included. -/
def helloWorldBytes : List Nat :=
  [72, 101, 108, 108, 111, 44, 32, 87, 111, 114, 108, 100, 33]

/-- The scan of get_index succeeds whenever some slot contains the sought
origin id. -/
theorem get_index_total {indexes : List (List Nat)} {i : Nat}
    (h : ∃ s ∈ indexes, i ∈ s) : ∃ f, get_index indexes i = some f := by
  induction indexes with
  | nil => obtain ⟨s, hs, _⟩ := h; exact absurd hs (List.not_mem_nil s)
  | cons s rest ih =>
      by_cases hm : i ∈ s
      · exact ⟨0, by simp [get_index, hm]⟩
      · obtain ⟨t, ht, hit⟩ := h
        rcases List.mem_cons.mp ht with rfl | ht'
        · exact absurd hit hm
        · obtain ⟨f, hf⟩ := ih ⟨t, ht', hit⟩
          exact ⟨f + 1, by simp [get_index, hm, hf]⟩

/-- A slot position returned by get_index lies inside the index list. -/
theorem get_index_lt_length {indexes : List (List Nat)} {i f : Nat}
    (h : get_index indexes i = some f) : f < indexes.length := by
  induction indexes generalizing f with
  | nil => simp [get_index] at h
  | cons s rest ih =>
      simp only [get_index] at h
      by_cases hm : i ∈ s
      · rw [if_pos hm] at h
        cases h
        simp
      · rw [if_neg hm] at h
        rcases Option.map_eq_some'.mp h with ⟨f', hf', rfl⟩
        have := ih hf'
        simp only [List.length_cons]
        omega

/-- The slot get_index returns does contain the sought origin id. -/
theorem get_index_found {indexes : List (List Nat)} {i f : Nat}
    (h : get_index indexes i = some f) :
    ∃ s, indexes[f]? = some s ∧ i ∈ s := by
  induction indexes generalizing f with
  | nil => simp [get_index] at h
  | cons s rest ih =>
      simp only [get_index] at h
      by_cases hm : i ∈ s
      · rw [if_pos hm] at h
        cases h
        exact ⟨s, by simp, hm⟩
      · rw [if_neg hm] at h
        rcases Option.map_eq_some'.mp h with ⟨f', hf', rfl⟩
        obtain ⟨t, ht, hit⟩ := ih hf'
        exact ⟨t, by simpa using ht, hit⟩

/-- A left-to-right scan that succeeds on a prefix succeeds, with the same
position, on any extension of it. -/
theorem get_index_append_left {A B : List (List Nat)} {i f : Nat}
    (h : get_index A i = some f) : get_index (A ++ B) i = some f := by
  induction A generalizing f with
  | nil => simp [get_index] at h
  | cons s rest ih =>
      rw [List.cons_append]
      simp only [get_index] at h ⊢
      by_cases hm : i ∈ s
      · rw [if_pos hm] at h ⊢
        exact h
      · rw [if_neg hm] at h ⊢
        rcases Option.map_eq_some'.mp h with ⟨f', hf', rfl⟩
        rw [ih hf']
        rfl

/-- On singleton slots built from a contiguous range, get_index is the
offset into the range. -/
theorem get_index_range' :
    ∀ (k a i : Nat), i < k →
      get_index ((List.range' a k).map fun j => [j]) (a + i) = some i := by
  intro k
  induction k with
  | zero => intro a i h; omega
  | succ k ih =>
      intro a i h
      rw [List.range'_succ, List.map_cons]
      simp only [get_index]
      by_cases hi : i = 0
      · subst hi
        rw [if_pos (by simp)]
      · rw [if_neg (by simp; omega)]
        have h3 := ih (a + 1) (i - 1) (by omega)
        have h4 : a + 1 + (i - 1) = a + i := by omega
        rw [h4] at h3
        rw [h3]
        simp
        omega

/-- On the initial offset index, origin id i < n resolves to position i. -/
theorem get_index_init {n i : Nat} (h : i < n) :
    get_index (initIndexes n) i = some i := by
  have h0 := get_index_range' n 0 i h
  simpa [initIndexes, List.range_eq_range'] using h0

/-- Membership in the accumulator push loop of the Remove fold. -/
theorem mem_push_aux :
    ∀ (elem acc : List Nat) (x : Nat),
      x ∈ elem.foldl (fun a y => if y ∈ a then a else a ++ [y]) acc ↔
        x ∈ acc ∨ x ∈ elem := by
  intro elem
  induction elem with
  | nil => intro acc x; simp
  | cons e es ih =>
      intro acc x
      rw [List.foldl_cons, ih]
      by_cases he : e ∈ acc
      · rw [if_pos he]
        constructor
        · rintro (h | h)
          · exact Or.inl h
          · exact Or.inr (List.mem_cons_of_mem e h)
        · rintro (h | h)
          · exact Or.inl h
          · rcases List.mem_cons.mp h with rfl | h'
            · exact Or.inl he
            · exact Or.inr h'
      · rw [if_neg he]
        simp only [List.mem_append, List.mem_singleton, List.mem_cons]
        tauto

/-- Membership in fold_push. -/
theorem mem_fold_push {acc elem : List Nat} {x : Nat} :
    x ∈ fold_push acc elem ↔ x ∈ acc ∨ x ∈ elem := by
  unfold fold_push
  exact mem_push_aux elem acc x

/-- The Remove fold keeps exactly the origin ids of the folded slots. -/
theorem mem_fold_union {slots : List (List Nat)} {x : Nat} :
    x ∈ fold_union slots ↔ ∃ s ∈ slots, x ∈ s := by
  suffices h : ∀ (sl : List (List Nat)) (acc : List Nat),
      x ∈ sl.foldl fold_push acc ↔ x ∈ acc ∨ ∃ s ∈ sl, x ∈ s by
    have h2 := h slots []
    simpa [fold_union] using h2
  intro sl
  induction sl with
  | nil => intro acc; simp
  | cons s ss ih =>
      intro acc
      rw [List.foldl_cons, ih, mem_fold_push]
      constructor
      · rintro ((h | h) | ⟨t, ht, hxt⟩)
        · exact Or.inl h
        · exact Or.inr ⟨s, List.mem_cons_self s ss, h⟩
        · exact Or.inr ⟨t, List.mem_cons_of_mem s ht, hxt⟩
      · rintro (h | ⟨t, ht, hxt⟩)
        · exact Or.inl (Or.inl h)
        · rcases List.mem_cons.mp ht with rfl | ht'
          · exact Or.inl (Or.inr hxt)
          · exact Or.inr ⟨t, ht', hxt⟩

/-- What a successful Insert step did: the resolved slot, the splice point
bound, and the two parallel splices. -/
theorem step_insert_some {st st' : PState} {way : Direction} {spot : Nat}
    {payload : List Nat}
    (h : step st (.Insert way spot payload) = some st') :
    ∃ lookup found,
      insert_lookup way spot = some lookup ∧
      get_index st.indexes lookup = some found ∧
      insert_point way found ≤ st.source.length ∧
      st'.source = st.source.take (insert_point way found) ++ payload
        ++ st.source.drop (insert_point way found) ∧
      st'.indexes = st.indexes.take (insert_point way found) ++ sentinels payload
        ++ st.indexes.drop (insert_point way found) := by
  simp only [step] at h
  cases hl : insert_lookup way spot with
  | none => rw [hl, Option.none_bind] at h; exact absurd h (by simp)
  | some lookup =>
      rw [hl, Option.some_bind] at h
      cases hg : get_index st.indexes lookup with
      | none => rw [hg, Option.none_bind] at h; exact absurd h (by simp)
      | some found =>
          rw [hg, Option.some_bind] at h
          by_cases hb : insert_point way found ≤ st.source.length
          · rw [if_pos hb] at h
            cases h
            exact ⟨lookup, found, rfl, hg, hb, rfl, rfl⟩
          · rw [if_neg hb] at h; exact absurd h (by simp)

/-- What a successful Remove step did: the resolved slot, the range start,
the range bounds, and the fold splice. -/
theorem step_remove_some {st st' : PState} {way : Direction} {spot count : Nat}
    (h : step st (.Remove way spot count) = some st') :
    ∃ found ip,
      get_index st.indexes spot = some found ∧
      remove_start way found count = some ip ∧
      ip + count ≤ st.indexes.length ∧ ip + count ≤ st.source.length ∧
      st'.source = st.source.take ip ++ st.source.drop (ip + count) ∧
      st'.indexes = st.indexes.take ip
        ++ [fold_union ((st.indexes.drop ip).take count)]
        ++ st.indexes.drop (ip + count) := by
  simp only [step] at h
  cases hg : get_index st.indexes spot with
  | none => rw [hg, Option.none_bind] at h; exact absurd h (by simp)
  | some found =>
      rw [hg, Option.some_bind] at h
      cases hr : remove_start way found count with
      | none => rw [hr, Option.none_bind] at h; exact absurd h (by simp)
      | some ip =>
          rw [hr, Option.some_bind] at h
          by_cases hb : ip + count ≤ st.indexes.length ∧ ip + count ≤ st.source.length
          · rw [if_pos hb] at h
            cases h
            exact ⟨found, ip, rfl, hr, hb.1, hb.2, rfl, rfl⟩
          · rw [if_neg hb] at h; exact absurd h (by simp)

/-- The initial offset index covers every original id. -/
theorem covers_init (src : List Nat) : covers src.length (initState src).indexes := by
  intro i hi
  refine ⟨[i], ?_, by simp⟩
  simp only [initState, initIndexes, List.mem_map]
  exact ⟨i, List.mem_range.mpr hi, rfl⟩

/-- Each loop iteration preserves coverage: an Insert only adds sentinel
slots, and a Remove folds every removed slot's ids into the union slot. -/
theorem covers_step {n : Nat} {st st' : PState} {p : AssuoPatch}
    (h : step st p = some st') (hc : covers n st.indexes) : covers n st'.indexes := by
  cases p with
  | Insert way spot payload =>
      obtain ⟨lookup, found, _, _, _, _, hidx⟩ := step_insert_some h
      intro i hi
      obtain ⟨s, hs, hmem⟩ := hc i hi
      rw [hidx]
      have hsplit : s ∈ st.indexes.take (insert_point way found) ∨
          s ∈ st.indexes.drop (insert_point way found) := by
        rw [← List.mem_append, List.take_append_drop]
        exact hs
      rcases hsplit with h1 | h1
      · exact ⟨s, by simp only [List.append_assoc, List.mem_append]; tauto, hmem⟩
      · exact ⟨s, by simp only [List.append_assoc, List.mem_append]; tauto, hmem⟩
  | Remove way spot count =>
      obtain ⟨found, ip, _, _, _, _, _, hidx⟩ := step_remove_some h
      intro i hi
      obtain ⟨s, hs, hmem⟩ := hc i hi
      rw [hidx]
      have hdecomp : st.indexes = st.indexes.take ip ++ ((st.indexes.drop ip).take count
          ++ st.indexes.drop (ip + count)) := by
        rw [← List.drop_drop]
        rw [List.take_append_drop, List.take_append_drop]
      rw [hdecomp] at hs
      rcases List.mem_append.mp hs with h1 | h1
      · exact ⟨s, by simp only [List.append_assoc, List.mem_append]; tauto, hmem⟩
      · rcases List.mem_append.mp h1 with h2 | h2
        · refine ⟨fold_union ((st.indexes.drop ip).take count), ?_, ?_⟩
          · simp only [List.append_assoc, List.mem_append, List.mem_singleton]
            tauto
          · exact mem_fold_union.mpr ⟨s, h2, hmem⟩
        · exact ⟨s, by simp only [List.append_assoc, List.mem_append]; tauto, hmem⟩

/-- The whole loop preserves coverage. -/
theorem run_covers {n : Nat} {st st' : PState} {ps : List AssuoPatch}
    (h : run st ps = some st') (hc : covers n st.indexes) : covers n st'.indexes := by
  induction ps generalizing st with
  | nil =>
      simp only [run] at h
      cases h
      exact hc
  | cons p ps ih =>
      simp only [run] at h
      cases hs : step st p with
      | none => rw [hs, Option.none_bind] at h; exact absurd h (by simp)
      | some st1 =>
          rw [hs, Option.some_bind] at h
          exact ih h (covers_step hs hc)

/-- Slot-count of origin id i over singleton slots built from a range. -/
theorem countP_init_range' :
    ∀ (k a i : Nat),
      ((List.range' a k).map fun j => [j]).countP (fun s => decide (i ∈ s)) =
        if a ≤ i ∧ i < a + k then 1 else 0 := by
  intro k
  induction k with
  | zero =>
      intro a i
      rw [if_neg (by omega)]
      simp
  | succ k ih =>
      intro a i
      rw [List.range'_succ, List.map_cons, List.countP_cons, ih (a + 1) i]
      by_cases hia : i = a
      · subst hia
        rw [if_neg (by omega : ¬(i + 1 ≤ i ∧ i < i + 1 + k)),
          if_pos (by omega : i ≤ i ∧ i < i + (k + 1))]
        simp
      · have hdec : decide (i ∈ [a]) = false := by
          simp only [List.mem_singleton, decide_eq_false_iff_not]
          exact hia
        rw [hdec]
        simp only [Bool.false_eq_true, if_false, Nat.add_zero]
        by_cases hc : a + 1 ≤ i ∧ i < a + 1 + k
        · rw [if_pos hc, if_pos (by omega)]
        · rw [if_neg hc, if_neg (by omega)]

/-- Initially every original id sits in exactly one slot. -/
theorem exactlyOne_init (src : List Nat) :
    exactlyOne src.length (initState src).indexes := by
  intro i hi
  have h0 := countP_init_range' src.length 0 i
  rw [if_pos (by omega)] at h0
  simpa [initState, initIndexes, List.range_eq_range'] using h0

/-- Each loop iteration preserves exact coverage, provided original ids
stay below the sentinel value (true on a 64-bit target, where a Vec holds
fewer than usize::MAX bytes). -/
theorem exactlyOne_step {n : Nat} {st st' : PState} {p : AssuoPatch}
    (hn : n ≤ USIZE_MAX) (h : step st p = some st')
    (he : exactlyOne n st.indexes) : exactlyOne n st'.indexes := by
  cases p with
  | Insert way spot payload =>
      obtain ⟨lookup, found, _, _, _, _, hidx⟩ := step_insert_some h
      intro i hi
      have h1 := he i hi
      rw [hidx, List.countP_append, List.countP_append]
      have hzero : (sentinels payload).countP (fun s => decide (i ∈ s)) = 0 := by
        rw [List.countP_eq_zero]
        intro a ha
        obtain ⟨b, _, rfl⟩ := List.mem_map.mp ha
        simp only [List.mem_singleton, decide_eq_true_eq]
        omega
      have hsum : (st.indexes.take (insert_point way found)).countP
            (fun s => decide (i ∈ s))
          + (st.indexes.drop (insert_point way found)).countP
            (fun s => decide (i ∈ s)) = 1 := by
        rw [← List.countP_append, List.take_append_drop]
        exact h1
      omega
  | Remove way spot count =>
      obtain ⟨found, ip, _, _, _, _, _, hidx⟩ := step_remove_some h
      intro i hi
      have h1 := he i hi
      have hdecomp : st.indexes = st.indexes.take ip ++ ((st.indexes.drop ip).take count
          ++ st.indexes.drop (ip + count)) := by
        rw [← List.drop_drop]
        rw [List.take_append_drop, List.take_append_drop]
      have hsum : (st.indexes.take ip).countP (fun s => decide (i ∈ s))
          + (((st.indexes.drop ip).take count).countP (fun s => decide (i ∈ s))
            + (st.indexes.drop (ip + count)).countP (fun s => decide (i ∈ s))) = 1 := by
        rw [← List.countP_append, ← List.countP_append, ← hdecomp]
        exact h1
      rw [hidx, List.countP_append, List.countP_append, List.countP_singleton]
      by_cases hf : i ∈ fold_union ((st.indexes.drop ip).take count)
      · have hpos : 0 < ((st.indexes.drop ip).take count).countP
            (fun s => decide (i ∈ s)) := by
          rw [List.countP_pos_iff]
          obtain ⟨s, hs, hmem⟩ := mem_fold_union.mp hf
          exact ⟨s, hs, by simpa using hmem⟩
        rw [if_pos (by simpa using hf)]
        omega
      · have hzero : ((st.indexes.drop ip).take count).countP
            (fun s => decide (i ∈ s)) = 0 := by
          rw [List.countP_eq_zero]
          intro s hs
          simp only [decide_eq_true_eq]
          exact fun hmem => hf (mem_fold_union.mpr ⟨s, hs, hmem⟩)
        rw [if_neg (by simpa using hf)]
        omega

/-- The whole loop preserves exact coverage. -/
theorem run_exactlyOne {n : Nat} {st st' : PState} {ps : List AssuoPatch}
    (hn : n ≤ USIZE_MAX) (h : run st ps = some st')
    (he : exactlyOne n st.indexes) : exactlyOne n st'.indexes := by
  induction ps generalizing st with
  | nil =>
      simp only [run] at h
      cases h
      exact he
  | cons p ps ih =>
      simp only [run] at h
      cases hs : step st p with
      | none => rw [hs, Option.none_bind] at h; exact absurd h (by simp)
      | some st1 =>
          rw [hs, Option.some_bind] at h
          exact ih h (exactlyOne_step hn hs he)

/-- A successful Post Insert, written with the splice point it uses. -/
theorem step_insert_post_eq {st : PState} {spot : Nat} {f : Nat} (payload : List Nat)
    (h0 : 1 ≤ spot) (hg : get_index st.indexes (spot - 1) = some f)
    (hb : f + 1 ≤ st.source.length) :
    step st (.Insert .Post spot payload) =
      some ⟨st.source.take (f + 1) ++ payload ++ st.source.drop (f + 1),
            st.indexes.take (f + 1) ++ sentinels payload ++ st.indexes.drop (f + 1)⟩ := by
  simp only [step, insert_lookup]
  rw [if_neg (by omega : ¬ spot = 0), Option.some_bind, hg, Option.some_bind]
  simp only [insert_point]
  rw [if_pos hb]

/-- A successful Pre Insert, written with the splice point it uses. -/
theorem step_insert_pre_eq {st : PState} {spot : Nat} {f : Nat} (payload : List Nat)
    (hg : get_index st.indexes spot = some f)
    (hb : f ≤ st.source.length) :
    step st (.Insert .Pre spot payload) =
      some ⟨st.source.take f ++ payload ++ st.source.drop f,
            st.indexes.take f ++ sentinels payload ++ st.indexes.drop f⟩ := by
  simp only [step, insert_lookup, Option.some_bind]
  rw [hg, Option.some_bind]
  simp only [insert_point]
  rw [if_pos hb]

/-- A successful Post Remove, written with the range it uses. -/
theorem step_remove_post_eq {st : PState} {spot count f : Nat}
    (hg : get_index st.indexes spot = some f)
    (h1 : f + 1 + count ≤ st.indexes.length) (h2 : f + 1 + count ≤ st.source.length) :
    step st (.Remove .Post spot count) =
      some ⟨st.source.take (f + 1) ++ st.source.drop (f + 1 + count),
            st.indexes.take (f + 1)
              ++ [fold_union ((st.indexes.drop (f + 1)).take count)]
              ++ st.indexes.drop (f + 1 + count)⟩ := by
  simp only [step]
  rw [hg, Option.some_bind]
  simp only [remove_start, Option.some_bind]
  rw [if_pos ⟨h1, h2⟩]

/-- A successful Pre Remove, written with the range it uses. -/
theorem step_remove_pre_eq {st : PState} {spot count f : Nat}
    (hcf : count ≤ f) (hg : get_index st.indexes spot = some f)
    (h1 : f ≤ st.indexes.length) (h2 : f ≤ st.source.length) :
    step st (.Remove .Pre spot count) =
      some ⟨st.source.take (f - count) ++ st.source.drop (f - count + count),
            st.indexes.take (f - count)
              ++ [fold_union ((st.indexes.drop (f - count)).take count)]
              ++ st.indexes.drop (f - count + count)⟩ := by
  simp only [step]
  rw [hg, Option.some_bind]
  simp only [remove_start]
  rw [if_neg (by omega : ¬ f < count), Option.some_bind]
  rw [if_pos ⟨by omega, by omega⟩]

/-- Under coverage, a step whose precondition holds does not panic. -/
theorem stepOkB_sound {n : Nat} {st : PState} {p : AssuoPatch}
    (hc : covers n st.indexes) (hok : stepOkB n st p = true) :
    ∃ st', step st p = some st' := by
  cases p with
  | Insert way spot payload =>
      cases way with
      | Pre =>
          simp only [stepOkB, Bool.and_eq_true, decide_eq_true_eq] at hok
          obtain ⟨hspot, hopt⟩ := hok
          obtain ⟨f, hf⟩ := get_index_total (hc spot hspot)
          rw [hf] at hopt
          simp only [optOk, decide_eq_true_eq] at hopt
          exact ⟨_, step_insert_pre_eq payload hf hopt⟩
      | Post =>
          simp only [stepOkB, Bool.and_eq_true, decide_eq_true_eq] at hok
          obtain ⟨⟨hone, hn⟩, hopt⟩ := hok
          obtain ⟨f, hf⟩ := get_index_total (hc (spot - 1) (by omega))
          rw [hf] at hopt
          simp only [optOk, decide_eq_true_eq] at hopt
          exact ⟨_, step_insert_post_eq payload hone hf hopt⟩
  | Remove way spot count =>
      cases way with
      | Pre =>
          simp only [stepOkB, Bool.and_eq_true, decide_eq_true_eq] at hok
          obtain ⟨hspot, hopt⟩ := hok
          obtain ⟨f, hf⟩ := get_index_total (hc spot hspot)
          rw [hf] at hopt
          simp only [optOk, Bool.and_eq_true, decide_eq_true_eq] at hopt
          obtain ⟨⟨hcf, hidx⟩, hsrc⟩ := hopt
          exact ⟨_, step_remove_pre_eq hcf hf hidx hsrc⟩
      | Post =>
          simp only [stepOkB, Bool.and_eq_true, decide_eq_true_eq] at hok
          obtain ⟨hspot, hopt⟩ := hok
          obtain ⟨f, hf⟩ := get_index_total (hc spot hspot)
          rw [hf] at hopt
          simp only [optOk, Bool.and_eq_true, decide_eq_true_eq] at hopt
          exact ⟨_, step_remove_post_eq hf hopt.1 hopt.2⟩

/-- Under coverage, a run whose precondition holds does not panic. -/
theorem RunOkB_sound {n : Nat} : ∀ {ps : List AssuoPatch} {st : PState},
    covers n st.indexes → RunOkB n st ps = true → ∃ st', run st ps = some st' := by
  intro ps
  induction ps with
  | nil => intro st _ _; exact ⟨st, rfl⟩
  | cons p ps ih =>
      intro st hc hok
      simp only [RunOkB, Bool.and_eq_true] at hok
      obtain ⟨hstep, hrest⟩ := hok
      obtain ⟨st1, hst1⟩ := stepOkB_sound hc hstep
      rw [hst1] at hrest
      obtain ⟨st2, hst2⟩ := ih (covers_step hst1 hc) hrest
      refine ⟨st2, ?_⟩
      simp only [run]
      rw [hst1, Option.some_bind]
      exact hst2

/-- Resolution through a preserved prefix of the initial index: ids below
the prefix length still resolve to their own position, whatever follows. -/
theorem get_index_after_prefix {n s i : Nat} (hs : s ≤ n) (hi : i < s)
    (rest : List (List Nat)) :
    get_index ((initIndexes n).take s ++ rest) i = some i := by
  have htake : (initIndexes n).take s = initIndexes s := by
    simp [initIndexes, ← List.map_take, List.take_range, Nat.min_eq_left hs]
  rw [htake]
  exact get_index_append_left (get_index_init hi)

/-- Claim C1 fails as stated: a Post Insert at spot 0 panics (the usize
subtraction spot - 1 underflows), and a Pre Insert at spot equal to the
original length panics (no slot contains that origin id), so apply does
not return a result on these well-formed-per-the-claim inputs. -/
theorem c1_counterexample :
    do_patch [72] [AssuoPatch.Insert Direction.Post 0 [65]] = none ∧
    do_patch [72] [AssuoPatch.Insert Direction.Pre 1 [65]] = none := by decide

/-- Claim C1 (amended): the patching loop returns a result and never
panics for edit lists in which, in the state where each edit runs, every
Insert Pre spot is below the original length, every Insert Post spot is
between 1 and the original length, and every edit's splice range lies
within the current buffer and offset index; spot resolution itself never
fails there, because every original id stays covered by some slot. -/
theorem c1_no_panic (src : List Nat) (ps : List AssuoPatch)
    (h : RunOkB src.length (initState src) ps = true) :
    ∃ buf, do_patch src ps = some buf := by
  obtain ⟨st', hst'⟩ := RunOkB_sound (covers_init src) h
  refine ⟨st'.source, ?_⟩
  simp only [do_patch]
  rw [hst']
  rfl

/-- Witness for C1 (amended) at a concrete insert-then-remove edit list. -/
theorem c1_witness :
    RunOkB (List.length [1, 2, 3]) (initState [1, 2, 3])
        [AssuoPatch.Insert Direction.Post 1 [9],
         AssuoPatch.Remove Direction.Pre 2 1] = true ∧
    ∃ buf, do_patch [1, 2, 3]
        [AssuoPatch.Insert Direction.Post 1 [9],
         AssuoPatch.Remove Direction.Pre 2 1] = some buf :=
  ⟨by decide,
    c1_no_panic [1, 2, 3]
      [AssuoPatch.Insert Direction.Post 1 [9],
       AssuoPatch.Remove Direction.Pre 2 1] (by decide)⟩

/-- Claim C2 fails as stated: on the buffer 10 20 30, a Post Insert at
spot 1 splices at buffer index 1 (the code resolves spot - 1 and adds 1),
while the spec's rule of resolving spot directly and adding 1 would splice
at index 2; the two results differ. -/
theorem c2_counterexample :
    do_patch [10, 20, 30] [AssuoPatch.Insert Direction.Post 1 [99]]
        = some [10, 99, 20, 30] ∧
    spec_single_insert [10, 20, 30] Direction.Post 1 [99]
        = some [10, 20, 99, 30] ∧
    ([10, 99, 20, 30] : List Nat) ≠ [10, 20, 99, 30] := by decide

/-- Claim C2 (amended): Pre resolves spot directly and splices there; Post
resolves spot - 1 and adds 1, so on the original buffer both place the
payload at byte offset spot, immediately after the byte at spot - 1. -/
theorem c2_insert_splice (src : List Nat) (spot : Nat) (payload : List Nat)
    (h1 : 1 ≤ spot) (h2 : spot ≤ src.length) :
    do_patch src [AssuoPatch.Insert Direction.Post spot payload]
        = some (src.take spot ++ payload ++ src.drop spot) ∧
    (spot < src.length →
      do_patch src [AssuoPatch.Insert Direction.Pre spot payload]
          = some (src.take spot ++ payload ++ src.drop spot)) := by
  constructor
  · have hg : get_index (initState src).indexes (spot - 1) = some (spot - 1) :=
      get_index_init (by omega)
    have hb : (spot - 1) + 1 ≤ (initState src).source.length := by
      simp only [initState]
      omega
    have hstep := step_insert_post_eq payload h1 hg hb
    have hsp : spot - 1 + 1 = spot := by omega
    rw [hsp] at hstep
    simp only [do_patch, run]
    rw [hstep, Option.some_bind]
    rfl
  · intro h3
    have hg : get_index (initState src).indexes spot = some spot :=
      get_index_init h3
    have hb : spot ≤ (initState src).source.length := by
      simp only [initState]
      omega
    have hstep := step_insert_pre_eq payload hg hb
    simp only [do_patch, run]
    rw [hstep, Option.some_bind]
    rfl

/-- Witness for C2 (amended) at the buffer 10 20 30, spot 1, payload 99. -/
theorem c2_witness :
    1 ≤ 1 ∧ 1 ≤ List.length [10, 20, 30] ∧
    (do_patch [10, 20, 30] [AssuoPatch.Insert Direction.Post 1 [99]]
        = some (List.take 1 [10, 20, 30] ++ [99] ++ List.drop 1 [10, 20, 30]) ∧
      (1 < List.length [10, 20, 30] →
        do_patch [10, 20, 30] [AssuoPatch.Insert Direction.Pre 1 [99]]
            = some (List.take 1 [10, 20, 30] ++ [99] ++ List.drop 1 [10, 20, 30]))) :=
  ⟨by decide, by decide, c2_insert_splice [10, 20, 30] 1 [99] (by decide) (by decide)⟩

/-- Claim C4: on the bytes of Hello with exclamation mark, the two Post
inserts at spot 5, World first and comma-space second, produce exactly the
bytes of Hello, World with exclamation mark. -/
theorem c4_hello_world :
    do_patch [72, 101, 108, 108, 111, 33]
        [AssuoPatch.Insert Direction.Post 5 [87, 111, 114, 108, 100],
         AssuoPatch.Insert Direction.Post 5 [44, 32]]
      = some [72, 101, 108, 108, 111, 44, 32, 87, 111, 114, 108, 100, 33] := by decide

/-- Claim C7 fails on the code: after one Remove of count 1 on a length-2
source, the offset index still has 2 slots while the buffer has 1 byte,
because the remove splices one fold slot in place of count slots but
deletes count bytes. -/
theorem c7_length_divergence :
    run (initState [1, 2]) [AssuoPatch.Remove Direction.Post 0 1]
        = some ⟨[1], [[0], [1]]⟩ ∧
    ([[0], [1]] : List (List Nat)).length ≠ ([1] : List Nat).length := by decide

/-- Claim C8 fails on the code: a Remove with count 0 succeeds and leaves
the buffer unchanged, but it splices one empty origin-id slot into the
offset index, so the index changes and a later edit resolves one slot too
far: with the empty-slot state, inserting 9 before original offset 1 of
the buffer 1 2 lands after the 2 instead of before it. -/
theorem c8_remove_zero_divergence :
    run (initState [1, 2]) [AssuoPatch.Remove Direction.Post 0 0]
        = some ⟨[1, 2], [[0], [], [1]]⟩ ∧
    ([[0], [], [1]] : List (List Nat)) ≠ initIndexes 2 ∧
    do_patch [1, 2] [AssuoPatch.Remove Direction.Post 0 0,
        AssuoPatch.Insert Direction.Pre 1 [9]] = some [1, 2, 9] ∧
    do_patch [1, 2] [AssuoPatch.Insert Direction.Pre 1 [9]] = some [1, 9, 2] ∧
    ([1, 2, 9] : List Nat) ≠ [1, 9, 2] := by decide

/-- Claim C9 fails as stated: an unresolvable spot and an invalid Remove
range both abort the patching loop by panicking, not by returning a typed
error value. -/
theorem c9_counterexample :
    do_patchOutcome [1] [AssuoPatch.Insert Direction.Pre 5 [2]]
        = PatchOutcome.panicked ∧
    do_patchOutcome [1, 2, 3] [AssuoPatch.Remove Direction.Pre 0 5]
        = PatchOutcome.panicked := by decide

/-- Claim C9 (amended): every do_patch call either returns the final
buffer or panics; the typed io error branch of the result type is never
produced by the patching loop, and a panicking run returns no partial
buffer. -/
theorem c9_no_typed_error (src : List Nat) (ps : List AssuoPatch) :
    (∃ b, do_patchOutcome src ps = PatchOutcome.ok b) ∨
      do_patchOutcome src ps = PatchOutcome.panicked := by
  rcases hr : run (initState src) ps with _ | st
  · right
    unfold do_patchOutcome
    rw [hr]
  · left
    refine ⟨st.source, ?_⟩
    unfold do_patchOutcome
    rw [hr]

/-- Claim C10 fails as stated: the sentinel is the in-band value
usize::MAX, so a later edit whose spot is usize::MAX (a value the caller
can supply) resolves to the slot created for an inserted payload byte, and
the payload 7 is spliced inside the earlier inserted bytes. -/
theorem c10_counterexample :
    run (initState [1, 2]) [AssuoPatch.Insert Direction.Post 1 [9]]
        = some ⟨[1, 9, 2], [[0], [USIZE_MAX], [1]]⟩ ∧
    get_index [[0], [USIZE_MAX], [1]] USIZE_MAX = some 1 ∧
    ([[0], [USIZE_MAX], [1]] : List (List Nat))[1]? = some [USIZE_MAX] ∧
    do_patch [1, 2] [AssuoPatch.Insert Direction.Post 1 [9],
        AssuoPatch.Insert Direction.Pre USIZE_MAX [7]] = some [1, 7, 9, 2] := by decide

/-- Claim C10 (amended): a slot created for inserted payload bytes holds
exactly the sentinel set, so a spot resolves to such a slot only when the
spot is the sentinel value usize::MAX itself; every other spot value can
never target inserted bytes. -/
theorem c10_sentinel_only (indexes : List (List Nat)) (spot f : Nat)
    (h1 : get_index indexes spot = some f)
    (h2 : indexes[f]? = some [USIZE_MAX]) :
    spot = USIZE_MAX := by
  obtain ⟨s, hs, hmem⟩ := get_index_found h1
  rw [h2] at hs
  cases hs
  exact List.mem_singleton.mp hmem

/-- Witness for C10 (amended): a concrete index where the sentinel spot
resolves to a sentinel slot. -/
theorem c10_witness :
    get_index [[5], [USIZE_MAX]] USIZE_MAX = some 1 ∧
    ([[5], [USIZE_MAX]] : List (List Nat))[1]? = some [USIZE_MAX] ∧
    USIZE_MAX = USIZE_MAX :=
  ⟨by decide, by decide,
    c10_sentinel_only [[5], [USIZE_MAX]] USIZE_MAX 1 (by decide) (by decide)⟩

/-- Claim C3 fails as stated: on the two-byte source of readme test 8, two
Post inserts at spot 1 (a then b, in list order) yield the second payload
immediately after the spot's neighbourhood and the first payload after it,
so the result is neither of the two outcomes the claim allows (payloads in
list order after the byte at spot - 1, or in list order after the byte at
spot). -/
theorem c3_counterexample :
    do_patch [62, 60] [AssuoPatch.Insert Direction.Post 1 [97],
        AssuoPatch.Insert Direction.Post 1 [98]] = some [62, 98, 97, 60] ∧
    ([62, 98, 97, 60] : List Nat) ≠ [62, 97, 98, 60] ∧
    ([62, 98, 97, 60] : List Nat) ≠ [62, 60, 97, 98] := by decide

/-- Claim C3 (amended): two Post Insert edits at the same original spot s,
applied in list order, each splice immediately after the byte whose origin
id is s - 1; hence the second-applied payload sits immediately after that
byte and the first-applied payload after the second's bytes, so sequential
Post inserts at one spot accumulate in reverse list order. -/
theorem c3_reverse_order (src p1 p2 : List Nat) (s : Nat)
    (h1 : 1 ≤ s) (h2 : s ≤ src.length) :
    do_patch src [AssuoPatch.Insert Direction.Post s p1,
        AssuoPatch.Insert Direction.Post s p2]
      = some (src.take s ++ (p2 ++ (p1 ++ src.drop s))) := by
  have hg1 : get_index (initState src).indexes (s - 1) = some (s - 1) :=
    get_index_init (by omega)
  have hb1 : (s - 1) + 1 ≤ (initState src).source.length := by
    simp only [initState]
    omega
  have hstep1 := step_insert_post_eq p1 h1 hg1 hb1
  have hsp : s - 1 + 1 = s := by omega
  rw [hsp] at hstep1
  set st1 : PState :=
    ⟨(initState src).source.take s ++ p1 ++ (initState src).source.drop s,
     (initState src).indexes.take s ++ sentinels p1
       ++ (initState src).indexes.drop s⟩ with hst1
  have hg2 : get_index st1.indexes (s - 1) = some (s - 1) := by
    show get_index ((initIndexes src.length).take s ++ sentinels p1
        ++ (initIndexes src.length).drop s) (s - 1) = some (s - 1)
    rw [List.append_assoc]
    exact get_index_after_prefix h2 (by omega) _
  have htkl : ((initState src).source.take s).length = s := by
    simp only [initState, List.length_take]
    omega
  have hb2 : (s - 1) + 1 ≤ st1.source.length := by
    show (s - 1) + 1 ≤ ((initState src).source.take s ++ p1
        ++ (initState src).source.drop s).length
    simp only [List.length_append, htkl]
    omega
  have hstep2 := step_insert_post_eq p2 h1 hg2 hb2
  rw [hsp] at hstep2
  have htk : st1.source.take s = src.take s := by
    show ((initState src).source.take s ++ p1
        ++ (initState src).source.drop s).take s = src.take s
    rw [List.append_assoc]
    exact List.take_left' htkl
  have hdr : st1.source.drop s = p1 ++ src.drop s := by
    show ((initState src).source.take s ++ p1
        ++ (initState src).source.drop s).drop s = p1 ++ src.drop s
    rw [List.append_assoc]
    exact List.drop_left' htkl
  simp only [do_patch, run]
  rw [hstep1, Option.some_bind, hstep2, Option.some_bind]
  simp only [Option.map_some']
  rw [htk, hdr]
  simp [List.append_assoc]

/-- Witness for C3 (amended) on the readme test 8 input. -/
theorem c3_witness :
    1 ≤ 1 ∧ 1 ≤ List.length [62, 60] ∧
    do_patch [62, 60] [AssuoPatch.Insert Direction.Post 1 [97],
        AssuoPatch.Insert Direction.Post 1 [98]]
      = some (List.take 1 [62, 60] ++ ([98] ++ ([97] ++ List.drop 1 [62, 60]))) :=
  ⟨by decide, by decide,
    c3_reverse_order [62, 60] [97] [98] 1 (by decide) (by decide)⟩

/-- Claim C5: every permutation of the six distinct-spot Post inserts on
the Hlo ol source yields exactly the bytes of Hello, World. -/
theorem c5_all_permutations (p : List AssuoPatch)
    (h : List.Perm p hloEditList) :
    do_patch hloSource p = some helloWorldBytes := by
  have hp : p ∈ hloEditList.permutations' := List.mem_permutations'.mpr h
  have hall : ∀ q ∈ hloEditList.permutations',
      do_patch hloSource q = some helloWorldBytes := by decide
  exact hall p hp

/-- Witness for C5 at the identity permutation. -/
theorem c5_witness :
    List.Perm hloEditList hloEditList ∧
    do_patch hloSource hloEditList = some helloWorldBytes :=
  ⟨List.Perm.refl hloEditList,
    c5_all_permutations hloEditList (List.Perm.refl hloEditList)⟩

/-- Claim C6: after any successful run prefix, every original offset id
below the original length is contained in exactly one slot of the offset
index, and consequently still resolves (no out-of-bounds panic), also when
the id fell inside a removed range; the hypothesis that the original
length stays at most usize::MAX is automatic for a Rust Vec. -/
theorem c6_exactly_one_slot (src : List Nat) (ps : List AssuoPatch) (st : PState)
    (hn : src.length ≤ USIZE_MAX) (h : run (initState src) ps = some st) :
    ∀ i, i < src.length →
      st.indexes.countP (fun s => decide (i ∈ s)) = 1 ∧
      ∃ f, get_index st.indexes i = some f := by
  have he := run_exactlyOne hn h (exactlyOne_init src)
  intro i hi
  refine ⟨he i hi, ?_⟩
  apply get_index_total
  have h1 := he i hi
  have hpos : 0 < st.indexes.countP (fun s => decide (i ∈ s)) := by omega
  obtain ⟨s, hs, hps⟩ := List.countP_pos_iff.mp hpos
  exact ⟨s, hs, by simpa using hps⟩

/-- Witness for C6 after a Remove that folded ids 1 and 2 into one slot;
the probed id 1 lies inside the removed range and still resolves. -/
theorem c6_witness :
    List.length [1, 2, 3, 4] ≤ USIZE_MAX ∧
    run (initState [1, 2, 3, 4]) [AssuoPatch.Remove Direction.Post 0 2]
        = some ⟨[1, 4], [[0], [1, 2], [3]]⟩ ∧
    (([[0], [1, 2], [3]] : List (List Nat)).countP (fun s => decide (1 ∈ s)) = 1 ∧
      ∃ f, get_index [[0], [1, 2], [3]] 1 = some f) :=
  ⟨by decide, by decide,
    c6_exactly_one_slot [1, 2, 3, 4] [AssuoPatch.Remove Direction.Post 0 2]
      ⟨[1, 4], [[0], [1, 2], [3]]⟩ (by decide) (by decide) 1 (by decide)⟩

end Assuo
